import Mathlib

/-!
Verification of the hierarchical contextual chunker
(src/contextual_rag_lambda.py and src/test.py).

The chunking arithmetic operates on lists of words.  Python `str.split()`
tokenization is modelled on `List Char`; the windowing loops are modelled
as functions over the word list, with Python slice semantics (including
negative start indices) made explicit.
-/

/-- Production constants, src/contextual_rag_lambda.py lines 11-13. -/
def PARENT_CHUNK_SIZE : ℕ := 1024

/-- Production child window size, src/contextual_rag_lambda.py line 12. -/
def CHILD_CHUNK_SIZE : ℕ := 512

/-- Production overlap, src/contextual_rag_lambda.py line 13. -/
def CHUNK_OVERLAP : ℕ := 30

/-- Test-harness parent size, src/test.py line 6. -/
def testPARENT_CHUNK_SIZE : ℕ := 100

/-- Test-harness child size, src/test.py line 7. -/
def testCHILD_CHUNK_SIZE : ℕ := 50

/-- Test-harness overlap, src/test.py line 8. -/
def testCHUNK_OVERLAP : ℕ := 10

/-- Python `range(0, W, s)` for step `s > 0`: the offsets `0, s, 2s, …` that are
below `W`; there are `⌈W/s⌉ = (W + s - 1) / s` of them. -/
def pyRange (W s : ℕ) : List ℕ := List.range' 0 ((W + s - 1) / s) s

/-- Effective start index of a Python slice `ws[z:]` on a list of length `W`:
a negative `z` counts from the end (clamped at 0), a nonnegative `z` is clamped
at `W`. -/
def pyStartIdx (W : ℕ) (z : ℤ) : ℕ := if z < 0 then (W + z).toNat else min z.toNat W

/-- Python slice `ws[z:e]` for an integer start `z` and a natural end
`e ≤ ws.length` (all slice ends in the chunker are `min (i + size) W`). -/
def pySlice (ws : List α) (z : ℤ) (e : ℕ) : List α :=
  (ws.take e).drop (pyStartIdx ws.length z)

/-- `start_idx` of the child-split loop: `i - CHUNK_OVERLAP` for `i > 0`
(as a Python int, which may be negative), else `0`.
Source: src/contextual_rag_lambda.py lines 121-124. -/
def candStart (o i : ℕ) : ℤ := if 0 < i then (i : ℤ) - o else 0

/-- `end_idx = min(i + CHILD_CHUNK_SIZE, len(parent_words))`.
Source: src/contextual_rag_lambda.py line 126. -/
def candEnd (c W i : ℕ) : ℕ := min (i + c) W

/-- The emission test of the child-split loop: the candidate at offset `i` is
skipped (`continue`) when `end_idx - start_idx < CHILD_CHUNK_SIZE // 2 and i > 0`.
Source: src/contextual_rag_lambda.py lines 129-130. -/
def keepCand (c o W i : ℕ) : Bool :=
  !(decide ((candEnd c W i : ℤ) - candStart o i < ((c / 2 : ℕ) : ℤ)) && decide (0 < i))

/-- The offsets of the child-split loop whose candidate window is emitted. -/
def emittedOffsets (c o W : ℕ) : List ℕ := (pyRange W (c - o)).filter (keepCand c o W)

/-- The `(start_idx, end_idx)` pairs of the emitted child windows, in emission
order. -/
def childIntervals (c o W : ℕ) : List (ℤ × ℕ) :=
  (emittedOffsets c o W).map (fun i => (candStart o i, candEnd c W i))

/-- The child windows (as word lists) emitted for one parent window `ws`:
the child-split loop of `ContextualChunker.chunk`
(src/contextual_rag_lambda.py lines 120-132). -/
def splitChild (c o : ℕ) (ws : List α) : List (List α) :=
  (emittedOffsets c o ws.length).map
    (fun i => pySlice ws (candStart o i) (candEnd c ws.length i))

/-- Word index `idx` of a parent window of `W` words is contained in at least
one emitted child window. -/
def coveredIdx (c o W idx : ℕ) : Prop :=
  ∃ pr ∈ childIntervals c o W, pr.1 ≤ (idx : ℤ) ∧ idx < pr.2

instance (c o W idx : ℕ) : Decidable (coveredIdx c o W idx) :=
  inferInstanceAs (Decidable (∃ pr ∈ childIntervals c o W, pr.1 ≤ (idx : ℤ) ∧ idx < pr.2))

/-- The parent windows (as word lists) of the parent-split loop of
`ContextualChunker.chunk` (src/contextual_rag_lambda.py lines 111-114). -/
def splitParent (p : ℕ) (ws : List α) : List (List α) :=
  (pyRange ws.length p).map (fun (i : ℕ) => pySlice ws (i : ℤ) (min (i + p) ws.length))

theorem mem_pyRange_iff {W s i : ℕ} :
    i ∈ pyRange W s ↔ ∃ j, j < (W + s - 1) / s ∧ i = s * j := by
  simp [pyRange, List.mem_range']

theorem mem_pyRange_lt {W s i : ℕ} (hs : 0 < s) (h : i ∈ pyRange W s) : i < W := by
  obtain ⟨j, hj, rfl⟩ := mem_pyRange_iff.mp h
  have h1 : s * (j + 1) ≤ s * ((W + s - 1) / s) := Nat.mul_le_mul_left s hj
  have h2 : s * ((W + s - 1) / s) ≤ W + s - 1 := Nat.mul_div_le (W + s - 1) s
  have h3 : s * (j + 1) = s * j + s := by ring
  omega

theorem mul_div_mem_pyRange {W s idx : ℕ} (hs : 0 < s) (hidx : idx < W) :
    s * (idx / s) ∈ pyRange W s := by
  refine mem_pyRange_iff.mpr ⟨idx / s, ?_, rfl⟩
  have h1 : idx / s ≤ (W - 1) / s := Nat.div_le_div_right (by omega)
  have h3 : ((W - 1) + s) / s = (W - 1) / s + 1 := Nat.add_div_right _ hs
  have h2 : (W + s - 1) / s = (W - 1) / s + 1 := by
    rw [show W + s - 1 = (W - 1) + s by omega, h3]
  omega

theorem getElem_pyRange {W s j : ℕ} (hj : j < (pyRange W s).length) :
    (pyRange W s).get ⟨j, hj⟩ = s * j := by
  simp [pyRange] at hj ⊢

theorem length_pyRange (W s : ℕ) : (pyRange W s).length = (W + s - 1) / s := by
  simp [pyRange]

theorem keepCand_zero (c o W : ℕ) : keepCand c o W 0 = true := by
  simp [keepCand]

theorem keepCand_eq_false_iff {c o W i : ℕ} :
    keepCand c o W i = false ↔
      ((candEnd c W i : ℤ) - candStart o i < ((c / 2 : ℕ) : ℤ) ∧ 0 < i) := by
  simp [keepCand, decide_eq_true_eq]

theorem keepCand_mono {c o W i j : ℕ} (hi : 0 < i) (hij : i ≤ j)
    (h : keepCand c o W i = false) : keepCand c o W j = false := by
  rw [keepCand_eq_false_iff] at h ⊢
  obtain ⟨h1, -⟩ := h
  refine ⟨?_, by omega⟩
  simp only [candStart, candEnd, if_pos hi, if_pos (by omega : 0 < j)] at h1 ⊢
  have hmin : (min (j + c) W : ℤ) ≤ (min (i + c) W : ℤ) + (j - i : ℕ) := by
    omega
  push_cast at h1 hmin ⊢
  omega

theorem filter_eq_takeWhile_mono {p : ℕ → Bool} :
    ∀ {l : List ℕ}, l.Pairwise (· < ·) →
      (∀ a b, a < b → p a = false → p b = false) →
      l.filter p = l.takeWhile p
  | [], _, _ => rfl
  | a :: t, hl, hmono => by
    have ha : ∀ b ∈ t, a < b := (List.pairwise_cons.mp hl).1
    have ht : t.Pairwise (· < ·) := (List.pairwise_cons.mp hl).2
    cases hpa : p a with
    | true =>
      simp only [List.filter_cons, List.takeWhile_cons, hpa, if_pos]
      rw [filter_eq_takeWhile_mono ht hmono]
    | false =>
      simp only [List.filter_cons, List.takeWhile_cons, hpa, if_neg, Bool.false_eq_true,
        not_false_eq_true, cond_false]
      exact List.filter_eq_nil_iff.mpr fun b hb =>
        by simp [hmono a b (ha b hb) hpa]

theorem takeWhile_eq_take_len {p : α → Bool} :
    ∀ l : List α, l.takeWhile p = l.take (l.takeWhile p).length
  | [] => rfl
  | a :: t => by
    cases hpa : p a with
    | true =>
      simp only [List.takeWhile_cons, hpa, if_pos, List.length_cons, List.take_succ_cons]
      exact congrArg _ (takeWhile_eq_take_len t)
    | false => simp [List.takeWhile_cons, hpa]

theorem emittedOffsets_eq_takeWhile (c o W : ℕ) :
    emittedOffsets c o W = (pyRange W (c - o)).takeWhile (keepCand c o W) := by
  refine filter_eq_takeWhile_mono ?_ ?_
  · rcases Nat.eq_zero_or_pos (c - o) with hs | hs
    · have hnil : pyRange W (c - o) = [] := by simp [pyRange, hs]
      rw [hnil]
      exact List.Pairwise.nil
    · exact List.pairwise_lt_range' 0 _ (c - o) hs
  · intro a b hab hpa
    rcases Nat.eq_zero_or_pos a with rfl | ha
    · rw [keepCand_zero] at hpa; exact absurd hpa (by simp)
    · exact keepCand_mono ha (le_of_lt hab) hpa

theorem pyStartIdx_coe {W n : ℕ} : pyStartIdx W (n : ℤ) = min n W := by
  simp [pyStartIdx]

theorem pyStartIdx_sub_coe {W i o : ℕ} (h : o ≤ i) :
    pyStartIdx W ((i : ℤ) - o) = min (i - o) W := by
  rw [show ((i : ℤ) - o) = ((i - o : ℕ) : ℤ) by push_cast [h]; ring, pyStartIdx_coe]

theorem length_pySlice (ws : List α) (z : ℤ) (e : ℕ) :
    (pySlice ws z e).length = min e ws.length - pyStartIdx ws.length z := by
  simp [pySlice]

theorem emittedOffsets_get_eq {c o W j : ℕ} (hj : j < (emittedOffsets c o W).length) :
    (emittedOffsets c o W).get ⟨j, hj⟩ = (c - o) * j := by
  have h1 : emittedOffsets c o W =
      (pyRange W (c - o)).take ((emittedOffsets c o W).length) := by
    conv_lhs => rw [emittedOffsets_eq_takeWhile]
    conv_rhs => rw [emittedOffsets_eq_takeWhile]
    exact takeWhile_eq_take_len _
  have hj2 : j < (pyRange W (c - o)).length := by
    have h2 := congrArg List.length h1
    rw [List.length_take] at h2
    omega
  have hj3 : j < (W + (c - o) - 1) / (c - o) := by
    rw [length_pyRange] at hj2
    exact hj2
  have h4 : (pyRange W (c - o))[j]? = some ((c - o) * j) := by
    have h5 := List.getElem?_range' 0 (c - o) hj3
    rw [Nat.zero_add] at h5
    exact h5
  have h6 : (emittedOffsets c o W)[j]? = some ((c - o) * j) := by
    rw [h1, List.getElem?_take_of_lt hj]
    exact h4
  rw [List.getElem?_eq_getElem (by exact hj)] at h6
  simpa using Option.some.inj h6

theorem emittedOffsets_get_keep {c o W j : ℕ} (hj : j < (emittedOffsets c o W).length) :
    keepCand c o W ((c - o) * j) = true := by
  have hmem : (emittedOffsets c o W).get ⟨j, hj⟩ ∈ emittedOffsets c o W := List.get_mem _ _ _
  rw [emittedOffsets_get_eq hj] at hmem
  rw [emittedOffsets_eq_takeWhile] at hmem
  exact List.mem_takeWhile_imp hmem

theorem emittedOffsets_get_mem {c o W j : ℕ} (hj : j < (emittedOffsets c o W).length) :
    (c - o) * j ∈ pyRange W (c - o) := by
  have hmem : (emittedOffsets c o W).get ⟨j, hj⟩ ∈ emittedOffsets c o W := List.get_mem _ _ _
  rw [emittedOffsets_get_eq hj] at hmem
  exact List.mem_of_mem_filter hmem

/-- The offset iteration of the child-split loop viewed as a recursive process:
visit `i`, then advance by the stride `s`, stopping once `i >= W`.  The positive
stride makes `W - i` decrease, which is the termination argument; a zero stride
(the configuration §7 of the spec warns about) is modelled as immediate
exhaustion since no decreasing measure exists for it. -/
def loopOffsets (s W i : ℕ) : List ℕ :=
  if h : 0 < s ∧ i < W then i :: loopOffsets s W (i + s) else []
termination_by W - i
decreasing_by omega

theorem loopOffsets_eq {s W : ℕ} (hs : 0 < s) :
    ∀ N i, W - i ≤ N → loopOffsets s W i = List.range' i ((W - i + s - 1) / s) s := by
  intro N
  induction N with
  | zero =>
    intro i hi
    rw [loopOffsets, dif_neg (by omega)]
    have hz : W - i = 0 := by omega
    rw [hz, Nat.div_eq_of_lt (by omega : 0 + s - 1 < s)]
    rfl
  | succ N ih =>
    intro i hi
    by_cases hc : i < W
    · rw [loopOffsets, dif_pos ⟨hs, hc⟩, ih (i + s) (by omega)]
      have hn : (W - i + s - 1) / s = ((W - (i + s) + s - 1) / s) + 1 := by
        rcases le_or_lt (i + s) W with hle | hlt
        · rw [show W - i + s - 1 = (W - (i + s) + s - 1) + s by omega,
            Nat.add_div_right _ hs]
        · rw [show W - (i + s) + s - 1 = 0 + s - 1 by omega,
            Nat.div_eq_of_lt (by omega : 0 + s - 1 < s)]
          exact Nat.div_eq_of_lt_le (by omega) (by omega)
      rw [hn, List.range'_succ]
    · rw [loopOffsets, dif_neg (by omega)]
      rw [show W - i = 0 by omega, Nat.div_eq_of_lt (by omega : 0 + s - 1 < s)]
      rfl

/-- Modelled from the spec: §4.2's discard-and-stop-advancing child split.  The
candidate windows are the ones the code computes, but the iteration stops at the
first candidate (at `i > 0`) whose length is below `child_size // 2`, instead of
the code's skip-and-continue. -/
def specSplitChild (c o : ℕ) (ws : List α) : List (List α) :=
  ((pyRange ws.length (c - o)).takeWhile (keepCand c o ws.length)).map
    (fun i => pySlice ws (candStart o i) (candEnd c ws.length i))

/-- C7: for every parent window and parameters with overlap < child_size, once a
candidate window at some offset i > 0 is discarded by the merge-small policy, no
later offset in the same parent window emits a child window; consequently the
code's skip-and-continue loop emits exactly the same child-window sequence as
the spec's discard-and-stop-advancing algorithm. -/
theorem c7_skip_is_final_and_refines_spec {α : Type} (c o : ℕ) (h : o < c)
    (ws : List α) :
    (∀ i j : ℕ, 0 < i → i ≤ j →
        keepCand c o ws.length i = false → keepCand c o ws.length j = false) ∧
    splitChild c o ws = specSplitChild c o ws := by
  refine ⟨fun i j hi hij hk => keepCand_mono hi hij hk, ?_⟩
  unfold splitChild specSplitChild
  rw [emittedOffsets_eq_takeWhile]

theorem c7_witness :
    (∀ i j : ℕ, 0 < i → i ≤ j →
        keepCand 50 10 (List.range' 1 131 : List ℕ).length i = false →
        keepCand 50 10 (List.range' 1 131 : List ℕ).length j = false) ∧
    splitChild 50 10 (List.range' 1 131) = specSplitChild 50 10 (List.range' 1 131) :=
  c7_skip_is_final_and_refines_spec 50 10 (by decide) (List.range' 1 131)

/-- C8: under the precondition overlap < child_size the child-split loop
terminates for every parent window: the recursive offset process equals the
finite list `pyRange W (c - o)` of `⌈W / (c-o)⌉` offsets, every visited offset
is below `W`, and consecutive visited offsets differ by the positive stride
`c - o`. -/
theorem c8_child_loop_terminates (c o W : ℕ) (h : o < c) :
    loopOffsets (c - o) W 0 = pyRange W (c - o) ∧
    (∀ i ∈ pyRange W (c - o), i < W) ∧
    (pyRange W (c - o)).length = (W + (c - o) - 1) / (c - o) ∧
    (∀ j : ℕ, ∀ hj : j + 1 < (pyRange W (c - o)).length,
        (pyRange W (c - o)).get ⟨j + 1, hj⟩ =
          (pyRange W (c - o)).get ⟨j, by omega⟩ + (c - o)) := by
  have hs : 0 < c - o := by omega
  refine ⟨?_, fun i hi => mem_pyRange_lt hs hi, length_pyRange _ _, ?_⟩
  · rw [loopOffsets_eq hs W 0 (by omega)]
    simp [pyRange]
  · intro j hj
    rw [getElem_pyRange, getElem_pyRange]
    ring

theorem c8_witness :
    loopOffsets (50 - 10) 130 0 = pyRange 130 (50 - 10) ∧
    (∀ i ∈ pyRange 130 (50 - 10), i < 130) ∧
    (pyRange 130 (50 - 10)).length = (130 + (50 - 10) - 1) / (50 - 10) ∧
    (∀ j : ℕ, ∀ hj : j + 1 < (pyRange 130 (50 - 10)).length,
        (pyRange 130 (50 - 10)).get ⟨j + 1, hj⟩ =
          (pyRange 130 (50 - 10)).get ⟨j, by omega⟩ + (50 - 10)) :=
  c8_child_loop_terminates 50 10 130 (by decide)

set_option maxRecDepth 40000 in
/-- C2: the claim's worked example is wrong about the code: on the parent word
sequence w1..w130 with child_size 50 and overlap 10, the child window emitted at
offset i = 80 is w71..w130 (its end is `min(80+50, 130) = 130`), not w71..w120,
and the words w121..w130 do appear in an emitted child window (words are
modelled as the numbers 1..130). -/
theorem c2_counterexample :
    splitChild testCHILD_CHUNK_SIZE testCHUNK_OVERLAP (List.range' 1 130) ≠
      [List.range' 1 50, List.range' 31 60, List.range' 71 50] ∧
    ∃ w ∈ splitChild testCHILD_CHUNK_SIZE testCHUNK_OVERLAP (List.range' 1 130),
      121 ∈ w := by
  decide

set_option maxRecDepth 100000 in
/-- C2 (amended): on w1..w130 with child_size 50 and overlap 10 the child split
emits exactly 3 windows: at i=0 the words w1..w50, at i=40 the words w31..w90,
and at i=80 the words w71..w130; the candidate at i=120 is omitted by the
merge-small policy, but every one of the words w1..w130 appears in at least one
emitted child window (there is no coverage gap on this input). -/
theorem c2_amended_exact_windows :
    splitChild testCHILD_CHUNK_SIZE testCHUNK_OVERLAP (List.range' 1 130) =
      [List.range' 1 50, List.range' 31 60, List.range' 71 60] ∧
    keepCand testCHILD_CHUNK_SIZE testCHUNK_OVERLAP 130 120 = false ∧
    ∀ k ∈ List.range' 1 130,
      ∃ w ∈ splitChild testCHILD_CHUNK_SIZE testCHUNK_OVERLAP (List.range' 1 130),
        k ∈ w := by
  decide

theorem keepCand_eq_true_iff {c o W i : ℕ} :
    keepCand c o W i = true ↔
      ¬(((candEnd c W i : ℤ) - candStart o i < ((c / 2 : ℕ) : ℤ)) ∧ 0 < i) := by
  rw [← keepCand_eq_false_iff]
  cases keepCand c o W i <;> simp

theorem splitChild_single {α : Type} {c o : ℕ} (h1 : 2 * o < c / 2)
    (ws : List α) (h2 : 0 < ws.length) (h3 : ws.length ≤ c) :
    splitChild c o ws = [ws] := by
  have hdiv : c / 2 ≤ c := Nat.div_le_self c 2
  have hoc : o < c := by omega
  have hs : 0 < c - o := by omega
  have hn : (ws.length + (c - o) - 1) / (c - o) = ((ws.length - 1) / (c - o)) + 1 := by
    rw [show ws.length + (c - o) - 1 = (ws.length - 1) + (c - o) by omega,
      Nat.add_div_right _ hs]
  have htail : ∀ i ∈ List.range' (c - o) ((ws.length - 1) / (c - o)) (c - o),
      keepCand c o ws.length i = false := by
    intro i hi
    have hipos : 0 < i ∧ c - o ≤ i ∧ i < ws.length := by
      obtain ⟨k, hk, rfl⟩ := List.mem_range'.mp hi
      have hb : (c - o) * ((ws.length - 1) / (c - o)) ≤ ws.length - 1 :=
        Nat.mul_div_le (ws.length - 1) (c - o)
      have ha : (c - o) * (k + 1) ≤ (c - o) * ((ws.length - 1) / (c - o)) :=
        Nat.mul_le_mul_left _ hk
      have hmul : (c - o) * (k + 1) = (c - o) + (c - o) * k := by ring
      omega
    refine keepCand_eq_false_iff.mpr ⟨?_, hipos.1⟩
    simp only [candStart, candEnd, if_pos hipos.1]
    rw [show min (i + c) ws.length = ws.length by omega]
    push_cast
    omega
  have hoffsets : emittedOffsets c o ws.length = [0] := by
    simp only [emittedOffsets, pyRange, hn, List.range'_succ, List.filter_cons,
      keepCand_zero, if_pos, Nat.zero_add]
    rw [List.filter_eq_nil_iff.mpr (fun a ha => by simp [htail a ha])]
  simp only [splitChild, hoffsets, List.map_cons, List.map_nil]
  rw [show candEnd c ws.length 0 = ws.length by simp only [candEnd, Nat.zero_add]; omega,
    show candStart o 0 = 0 by simp [candStart]]
  simp [pySlice, pyStartIdx]

/-- C5: for every parent window whose word count W satisfies 0 < W ≤
CHILD_CHUNK_SIZE, the child split with the production parameters emits exactly
one child window, equal to the entire parent window (the iteration only
produces output at offset i = 0; parent windows are never empty, see
`c4_parent_split_partition`). -/
theorem c5_small_parent_single_window {α : Type} (ws : List α)
    (h1 : 0 < ws.length) (h2 : ws.length ≤ CHILD_CHUNK_SIZE) :
    splitChild CHILD_CHUNK_SIZE CHUNK_OVERLAP ws = [ws] :=
  splitChild_single (by decide) ws h1 h2

theorem c5_witness :
    0 < (List.range' 0 3 : List ℕ).length ∧
    (List.range' 0 3 : List ℕ).length ≤ CHILD_CHUNK_SIZE ∧
    splitChild CHILD_CHUNK_SIZE CHUNK_OVERLAP (List.range' 0 3 : List ℕ) =
      [List.range' 0 3] :=
  ⟨by decide, by decide,
    c5_small_parent_single_window (List.range' 0 3) (by decide) (by decide)⟩

/-- C6: for every parent window and parameters with 2 * overlap ≤ child_size
(both configured parameter sets, 512/30 and 50/10, satisfy this), every emitted
child window has length at least child_size // 2 words, unless it is the only
child window emitted for its parent window. -/
theorem c6_emitted_window_min_length {α : Type} {c o : ℕ} (h2o : 2 * o ≤ c)
    (ws : List α) (hmulti : 2 ≤ (splitChild c o ws).length) :
    ∀ w ∈ splitChild c o ws, c / 2 ≤ w.length := by
  have hlen : (splitChild c o ws).length = (emittedOffsets c o ws.length).length := by
    simp [splitChild]
  have hs : 0 < c - o := by
    rcases Nat.eq_zero_or_pos (c - o) with hz | hp
    · exfalso
      have hpr : pyRange ws.length (c - o) = [] := by simp [pyRange, hz]
      have he : emittedOffsets c o ws.length = [] := by simp [emittedOffsets, hpr]
      have h0 : (emittedOffsets c o ws.length).length = 0 := by rw [he]; rfl
      omega
    · exact hp
  -- the second emitted offset shows the parent is long enough
  have hj1 : 1 < (emittedOffsets c o ws.length).length := by omega
  have hkeep1 : keepCand c o ws.length ((c - o) * 1) = true := emittedOffsets_get_keep hj1
  have hmem1 : (c - o) * 1 ∈ pyRange ws.length (c - o) := emittedOffsets_get_mem hj1
  have hW1 : (c - o) * 1 < ws.length := mem_pyRange_lt hs hmem1
  have hWlarge : (c / 2 : ℤ) + ((c : ℤ) - 2 * o) ≤ ws.length ∨ c ≤ ws.length := by
    rw [keepCand_eq_true_iff] at hkeep1
    simp only [candStart, candEnd, if_pos (by omega : 0 < (c - o) * 1)] at hkeep1
    rcases le_or_lt c ws.length with hle | hlt
    · exact Or.inr hle
    · left
      rw [Nat.mul_one] at hkeep1 hW1
      rw [show min (c - o + c) ws.length = ws.length by omega] at hkeep1
      push_cast at hkeep1 ⊢
      omega
  intro w hw
  obtain ⟨i, hi, rfl⟩ := List.mem_map.mp hw
  have himem : i ∈ pyRange ws.length (c - o) := List.mem_of_mem_filter hi
  have hikeep : keepCand c o ws.length i = true := (List.mem_filter.mp hi).2
  have hiW : i < ws.length := mem_pyRange_lt hs himem
  rcases Nat.eq_zero_or_pos i with rfl | hipos
  · -- offset 0: the window is ws[0 : min c W]
    rw [length_pySlice]
    rw [show candStart o 0 = ((0 : ℕ) : ℤ) by simp [candStart], pyStartIdx_coe]
    simp only [candEnd, Nat.zero_add]
    have h2 : (c : ℤ) / 2 ≤ ((c : ℕ) : ℤ) / 2 := le_refl _
    push_cast at hWlarge
    omega
  · -- offset i > 0: the keep test gives the bound directly
    have hio : o ≤ i := by
      obtain ⟨k, hk, rfl⟩ := mem_pyRange_iff.mp himem
      have hk1 : 1 ≤ k := by
        rcases Nat.eq_zero_or_pos k with rfl | hp
        · simp at hipos
        · exact hp
      have hle := Nat.mul_le_mul_left (c - o) hk1
      rw [Nat.mul_one] at hle
      omega
    rw [keepCand_eq_true_iff] at hikeep
    simp only [candStart, candEnd, if_pos hipos] at hikeep
    rw [length_pySlice]
    simp only [candStart, candEnd, if_pos hipos]
    rw [pyStartIdx_sub_coe hio]
    push_cast at hikeep ⊢
    omega

theorem c6_witness :
    2 * 10 ≤ 50 ∧ 2 ≤ (splitChild 50 10 (List.range' 0 55 : List ℕ)).length ∧
    ∀ w ∈ splitChild 50 10 (List.range' 0 55 : List ℕ), 50 / 2 ≤ w.length :=
  ⟨by decide, by decide,
    c6_emitted_window_min_length (by decide) (List.range' 0 55) (by decide)⟩

/-- The largest end index among the emitted child windows of a parent window
(0 when nothing is emitted).  Words at or beyond this index are exactly the
tail the merge-small policy can drop. -/
def lastEmittedEnd (c o W : ℕ) : ℕ := ((childIntervals c o W).map Prod.snd).foldr max 0

theorem lt_foldr_max {l : List ℕ} {x : ℕ} (h : x < l.foldr max 0) : ∃ y ∈ l, x < y := by
  induction l with
  | nil => simp at h
  | cons a t ih =>
    simp only [List.foldr_cons] at h
    rcases Nat.lt_or_ge x a with hx | hx
    · exact ⟨a, by simp, hx⟩
    · have hx2 : x < t.foldr max 0 := by omega
      obtain ⟨y, hy, hxy⟩ := ih hx2
      exact ⟨y, by simp [hy], hxy⟩

theorem le_foldr_max {l : List ℕ} {y : ℕ} (h : y ∈ l) : y ≤ l.foldr max 0 := by
  induction l with
  | nil => simp at h
  | cons a t ih =>
    simp only [List.foldr_cons]
    rcases List.mem_cons.mp h with rfl | ht
    · omega
    · have := ih ht
      omega

/-- C1: the claim fails on the code with the production parameters
(CHUNK_OVERLAP = 30 < 512 = CHILD_CHUNK_SIZE): in a parent window of 513
words, word index 512 is contained in no emitted child window — the only
emitted window is words[0:512], because the candidate at offset 482 has
length 61 < 256 and is skipped. -/
theorem c1_counterexample :
    ¬ coveredIdx CHILD_CHUNK_SIZE CHUNK_OVERLAP 513 512 ∧
    (512 : ℕ) < 513 ∧ CHUNK_OVERLAP < CHILD_CHUNK_SIZE := by decide

/-- C1 (amended): for every parent window of W words and parameters with
2 * overlap ≤ child_size (both configured parameter sets satisfy this), every
word index below the end of the last emitted child window is contained in at
least one emitted child window, and the word indices at or beyond that end —
the tail whose candidate the merge-small policy discarded — are contained in
none. -/
theorem c1_amended_coverage_below_last_end {c o W : ℕ} (h2o : 2 * o ≤ c) :
    (∀ idx, idx < lastEmittedEnd c o W → coveredIdx c o W idx) ∧
    (∀ idx, lastEmittedEnd c o W ≤ idx → ¬ coveredIdx c o W idx) := by
  constructor
  · intro idx hidx
    obtain ⟨y, hy, hxy⟩ := lt_foldr_max hidx
    obtain ⟨pr, hpr, rfl⟩ := List.mem_map.mp hy
    obtain ⟨k, hk, rfl⟩ := List.mem_map.mp hpr
    have hkmem : k ∈ pyRange W (c - o) := List.mem_of_mem_filter hk
    have hkkeep : keepCand c o W k = true := (List.mem_filter.mp hk).2
    have hs : 0 < c - o := by
      rcases Nat.eq_zero_or_pos (c - o) with hz | hp
      · exfalso
        have hpr0 : pyRange W (c - o) = [] := by simp [pyRange, hz]
        rw [hpr0] at hkmem
        simp at hkmem
      · exact hp
    have hkW : k < W := mem_pyRange_lt hs hkmem
    have hidxW : idx < W := by
      have : (candEnd c W k) ≤ W := by simp [candEnd]
      omega
    by_cases hcase : candStart o k ≤ (idx : ℤ)
    · exact ⟨(candStart o k, candEnd c W k), List.mem_map_of_mem _ hk, hcase, hxy⟩
    · -- idx is left of window k: the window at offset s * (idx / s) covers idx
      push_neg at hcase
      have hkpos : 0 < k := by
        rcases Nat.eq_zero_or_pos k with rfl | hp
        · exfalso
          simp [candStart] at hcase
          omega
        · exact hp
      have hko : o ≤ k := by
        obtain ⟨m, hm, rfl⟩ := mem_pyRange_iff.mp hkmem
        have hm1 : 1 ≤ m := by
          rcases Nat.eq_zero_or_pos m with rfl | hp
          · simp at hkpos
          · exact hp
        have hle := Nat.mul_le_mul_left (c - o) hm1
        rw [Nat.mul_one] at hle
        omega
      rw [candStart, if_pos hkpos] at hcase
      have hidxk : idx < k - o := by omega
      set j := (c - o) * (idx / (c - o)) with hj
      have hjmem : j ∈ pyRange W (c - o) := mul_div_mem_pyRange hs hidxW
      have hjle : j ≤ idx := by
        have := Nat.mul_div_le idx (c - o)
        omega
      have hjkeep : keepCand c o W j = true := by
        rcases Nat.eq_zero_or_pos j with hj0 | hjpos
        · rw [hj0]; exact keepCand_zero c o W
        · cases hb : keepCand c o W j with
          | false =>
            have hkf : keepCand c o W k = false := keepCand_mono hjpos (by omega) hb
            rw [hkkeep] at hkf
            exact absurd hkf (by simp)
          | true => rfl
      have hdm : (c - o) * (idx / (c - o)) + idx % (c - o) = idx := Nat.div_add_mod idx (c - o)
      have hmod : idx % (c - o) < c - o := Nat.mod_lt idx hs
      have hend : idx < candEnd c W j := by
        simp only [candEnd]
        omega
      have hstart : candStart o j ≤ (idx : ℤ) := by
        rcases Nat.eq_zero_or_pos j with hj0 | hjpos
        · rw [hj0]; simp [candStart]
        · rw [candStart, if_pos hjpos]
          omega
      exact ⟨(candStart o j, candEnd c W j),
        List.mem_map_of_mem _ (List.mem_filter.mpr ⟨hjmem, hjkeep⟩), hstart, hend⟩
  · intro idx hidx hcov
    obtain ⟨pr, hpr, hle2, hlt2⟩ := hcov
    have : pr.2 ≤ lastEmittedEnd c o W :=
      le_foldr_max (List.mem_map_of_mem _ hpr)
    omega

theorem c1_witness :
    2 * 10 ≤ 50 ∧ (119 : ℕ) < lastEmittedEnd 50 10 131 ∧
    coveredIdx 50 10 131 119 ∧ ¬ coveredIdx 50 10 131 130 :=
  ⟨by decide, by decide,
    (c1_amended_coverage_below_last_end (by decide)).1 119 (by decide),
    (c1_amended_coverage_below_last_end (by decide)).2 130 (by decide)⟩

theorem stride_pos_of_emitted {c o W : ℕ} (h : 0 < (emittedOffsets c o W).length) :
    0 < c - o := by
  rcases Nat.eq_zero_or_pos (c - o) with hz | hp
  · exfalso
    have hpr : pyRange W (c - o) = [] := by simp [pyRange, hz]
    have he : emittedOffsets c o W = [] := by simp [emittedOffsets, hpr]
    rw [he] at h
    simp at h
  · exact hp

theorem consecutive_share_core {α : Type} {c o i : ℕ} (hc : 2 * o ≤ c / 2)
    (ws : List α)
    (hio : i = 0 ∨ (0 < i ∧ o ≤ i))
    (hi1_mem : i + (c - o) ∈ pyRange ws.length (c - o))
    (hkeep1 : keepCand c o ws.length (i + (c - o)) = true)
    (hs : 0 < c - o) :
    2 * o ≤ (pySlice ws (candStart o i) (candEnd c ws.length i)).length ∧
    2 * o ≤ (pySlice ws (candStart o (i + (c - o)))
        (candEnd c ws.length (i + (c - o)))).length ∧
    (pySlice ws (candStart o i) (candEnd c ws.length i)).drop
        ((pySlice ws (candStart o i) (candEnd c ws.length i)).length - 2 * o) =
      (pySlice ws (candStart o (i + (c - o)))
        (candEnd c ws.length (i + (c - o)))).take (2 * o) := by
  have hdiv : c / 2 ≤ c := Nat.div_le_self c 2
  have h2c : 2 * (c / 2) ≤ c := by omega
  have hW1 : i + (c - o) < ws.length := mem_pyRange_lt hs hi1_mem
  have huncap : i + c ≤ ws.length := by
    by_contra hcap
    push_neg at hcap
    rw [keepCand_eq_true_iff] at hkeep1
    simp only [candStart, candEnd, if_pos (show 0 < i + (c - o) by omega)] at hkeep1
    rw [show min (i + (c - o) + c) ws.length = ws.length by omega] at hkeep1
    push_cast at hkeep1
    omega
  -- effective start and end of the earlier window
  have ha : pyStartIdx ws.length (candStart o i) = i - o := by
    rcases hio with rfl | hio
    · simp [candStart, pyStartIdx]
    · rw [candStart, if_pos hio.1, pyStartIdx_sub_coe hio.2]
      omega
  have hendA : candEnd c ws.length i = i + c := by
    simp only [candEnd]
    omega
  -- effective start and end of the later window
  have hb : pyStartIdx ws.length (candStart o (i + (c - o))) = i + (c - o) - o := by
    rw [candStart, if_pos (show 0 < i + (c - o) by omega),
      pyStartIdx_sub_coe (show o ≤ i + (c - o) by omega)]
    omega
  have hendB : i + c ≤ candEnd c ws.length (i + (c - o)) := by
    simp only [candEnd]
    omega
  have hendB' : candEnd c ws.length (i + (c - o)) ≤ ws.length := by
    simp only [candEnd]
    omega
  have hlenA : (pySlice ws (candStart o i) (candEnd c ws.length i)).length
      = i + c - (i - o) := by
    rw [length_pySlice, ha, hendA]
    omega
  have hlenB : (pySlice ws (candStart o (i + (c - o)))
      (candEnd c ws.length (i + (c - o)))).length
      = candEnd c ws.length (i + (c - o)) - (i + (c - o) - o) := by
    rw [length_pySlice, hb]
    omega
  refine ⟨by omega, by omega, ?_⟩
  rw [hlenA]
  simp only [pySlice, ha, hb, hendA]
  rw [List.drop_drop, List.take_drop, List.take_take]
  rw [show (i - o) + (i + c - (i - o) - 2 * o) = i + c - 2 * o by omega,
    show i + (c - o) - o + 2 * o = i + c by omega,
    show min (i + c) (candEnd c ws.length (i + (c - o))) = i + c by omega,
    show i + (c - o) - o = i + c - 2 * o by omega]

set_option maxRecDepth 40000 in
/-- C3: the claim fails on the code: with the test-harness parameters
(child_size 50, overlap 10) on the parent w1..w130 the first two emitted
windows have lengths 50 and 60 (both at least overlap = 10), yet the last 10
words of the earlier window (w41..w50) are not the first 10 words of the later
window (w31..w40) — consecutive windows actually share 2*overlap = 20 words. -/
theorem c3_counterexample :
    (10 : ℕ) ≤ ((splitChild testCHILD_CHUNK_SIZE testCHUNK_OVERLAP
        (List.range' 1 130)).getD 0 []).length ∧
    (10 : ℕ) ≤ ((splitChild testCHILD_CHUNK_SIZE testCHUNK_OVERLAP
        (List.range' 1 130)).getD 1 []).length ∧
    ((splitChild testCHILD_CHUNK_SIZE testCHUNK_OVERLAP
        (List.range' 1 130)).getD 0 []).drop
        (((splitChild testCHILD_CHUNK_SIZE testCHUNK_OVERLAP
          (List.range' 1 130)).getD 0 []).length - 10) ≠
      ((splitChild testCHILD_CHUNK_SIZE testCHUNK_OVERLAP
        (List.range' 1 130)).getD 1 []).take 10 := by
  decide

/-- C3 (amended): for every parent window and parameters with
2 * overlap ≤ child_size // 2 (both configured parameter sets satisfy this),
two consecutively emitted child windows share exactly 2 * overlap words: each
has length at least 2 * overlap, and the last 2 * overlap words of the earlier
window equal the first 2 * overlap words of the later window. -/
theorem c3_amended_consecutive_share_two_overlap {α : Type} {c o : ℕ}
    (hc : 2 * o ≤ c / 2) (ws : List α) (j : ℕ)
    (hj : j + 1 < (splitChild c o ws).length) :
    2 * o ≤ ((splitChild c o ws).get ⟨j, by omega⟩).length ∧
    2 * o ≤ ((splitChild c o ws).get ⟨j + 1, hj⟩).length ∧
    ((splitChild c o ws).get ⟨j, by omega⟩).drop
        (((splitChild c o ws).get ⟨j, by omega⟩).length - 2 * o) =
      ((splitChild c o ws).get ⟨j + 1, hj⟩).take (2 * o) := by
  have hlen : (splitChild c o ws).length = (emittedOffsets c o ws.length).length := by
    simp [splitChild]
  have hj0 : j < (emittedOffsets c o ws.length).length := by omega
  have hj1 : j + 1 < (emittedOffsets c o ws.length).length := by omega
  have hs : 0 < c - o := @stride_pos_of_emitted c o ws.length (by omega)
  have hget : ∀ (m : ℕ) (hm : m < (splitChild c o ws).length),
      (splitChild c o ws).get ⟨m, hm⟩ =
        pySlice ws (candStart o ((c - o) * m)) (candEnd c ws.length ((c - o) * m)) := by
    intro m hm
    have hm2 : m < (emittedOffsets c o ws.length).length := by omega
    have h1 : (splitChild c o ws).get ⟨m, hm⟩ =
        pySlice ws (candStart o ((emittedOffsets c o ws.length).get ⟨m, hm2⟩))
          (candEnd c ws.length ((emittedOffsets c o ws.length).get ⟨m, hm2⟩)) := by
      simp only [splitChild, List.get_eq_getElem, List.getElem_map]
    rw [h1, emittedOffsets_get_eq hm2]
  have hio : (c - o) * j = 0 ∨ (0 < (c - o) * j ∧ o ≤ (c - o) * j) := by
    rcases Nat.eq_zero_or_pos j with rfl | hjpos
    · left
      simp
    · right
      have h1 : (c - o) * 1 ≤ (c - o) * j := Nat.mul_le_mul_left _ hjpos
      rw [Nat.mul_one] at h1
      omega
  have hmul : (c - o) * (j + 1) = (c - o) * j + (c - o) := by ring
  have hmem1 : (c - o) * j + (c - o) ∈ pyRange ws.length (c - o) := by
    have h2 := emittedOffsets_get_mem hj1
    rwa [hmul] at h2
  have hkeep1 : keepCand c o ws.length ((c - o) * j + (c - o)) = true := by
    have h2 := emittedOffsets_get_keep hj1
    rwa [hmul] at h2
  have hAB := consecutive_share_core hc ws hio hmem1 hkeep1 hs
  rw [hget j (by omega), hget (j + 1) hj, hmul]
  exact hAB

set_option maxRecDepth 40000 in
theorem c3_witness :
    2 * 10 ≤ 50 / 2 ∧
    (2 * 10 ≤ ((splitChild 50 10 (List.range' 1 130 : List ℕ)).get ⟨0, by decide⟩).length ∧
     2 * 10 ≤ ((splitChild 50 10 (List.range' 1 130 : List ℕ)).get ⟨1, by decide⟩).length ∧
     ((splitChild 50 10 (List.range' 1 130 : List ℕ)).get ⟨0, by decide⟩).drop
         (((splitChild 50 10 (List.range' 1 130 : List ℕ)).get
            ⟨0, by decide⟩).length - 2 * 10) =
       ((splitChild 50 10 (List.range' 1 130 : List ℕ)).get ⟨1, by decide⟩).take (2 * 10)) :=
  ⟨by decide,
    c3_amended_consecutive_share_two_overlap (by decide) (List.range' 1 130) 0 (by decide)⟩

theorem take_min_length {α : Type} (p : ℕ) (ws : List α) :
    ws.take (min p ws.length) = ws.take p := by
  rcases Nat.le_total p ws.length with h | h
  · rw [Nat.min_eq_left h]
  · rw [Nat.min_eq_right h, List.take_length, List.take_of_length_le h]

theorem splitParent_nil {α : Type} (p : ℕ) : splitParent p ([] : List α) = [] := by
  rcases Nat.eq_zero_or_pos p with rfl | hp
  · simp [splitParent, pyRange]
  · simp only [splitParent, pyRange, List.length_nil]
    rw [show (0 + p - 1) / p = 0 from Nat.div_eq_of_lt (by omega)]
    simp

theorem splitParent_cons {α : Type} {p : ℕ} (hp : 0 < p) (ws : List α) (hne : ws ≠ []) :
    splitParent p ws = ws.take p :: splitParent p (ws.drop p) := by
  have hW : 0 < ws.length := List.length_pos.mpr hne
  have hn : (ws.length + p - 1) / p = ((ws.length - 1) / p) + 1 := by
    rw [show ws.length + p - 1 = (ws.length - 1) + p by omega, Nat.add_div_right _ hp]
  have hm : ((ws.drop p).length + p - 1) / p = (ws.length - 1) / p := by
    rw [List.length_drop]
    rcases Nat.le_total ws.length p with h | h
    · rw [show ws.length - p = 0 by omega,
        Nat.div_eq_of_lt (by omega : 0 + p - 1 < p)]
      exact (Nat.div_eq_of_lt (by omega)).symm
    · rw [show ws.length - p + p - 1 = ws.length - 1 by omega]
  simp only [splitParent, pyRange, hn, hm, List.range'_succ, List.map_cons]
  refine congrArg₂ _ ?_ ?_
  · simp [pySlice, pyStartIdx, take_min_length]
  · have hr : List.range' (0 + p) ((ws.length - 1) / p) p =
        List.map (p + ·) (List.range' 0 ((ws.length - 1) / p) p) := by
      have h0 := List.map_add_range' p 0 ((ws.length - 1) / p) p
      rw [Nat.add_zero] at h0
      rw [Nat.zero_add]
      exact h0.symm
    rw [hr, List.map_map]
    refine List.map_congr_left ?_
    intro x hx
    obtain ⟨k, hk, rfl⟩ := List.mem_range'.mp hx
    have hbound : p * (k + 1) ≤ p * ((ws.length - 1) / p) := Nat.mul_le_mul_left _ hk
    have hdle : p * ((ws.length - 1) / p) ≤ ws.length - 1 := Nat.mul_div_le _ _
    have hmul : p * (k + 1) = p * k + p := by ring
    have hxW : p + (0 + p * k) < ws.length := by omega
    simp only [Function.comp, pySlice, pyStartIdx, List.length_drop]
    rw [List.take_drop, List.drop_drop]
    rw [if_neg (by omega), if_neg (by omega)]
    simp only [Int.toNat_natCast]
    rw [show min (p + (0 + p * k)) ws.length = p + (0 + p * k) by omega,
      show min (0 + p * k) (ws.length - p) = 0 + p * k by omega,
      show p + min (0 + p * k + p) (ws.length - p) = min (p + (0 + p * k) + p) ws.length
        by omega,
      show p + (0 + p * k) = 0 + p * k + p by omega]

theorem splitParent_join_aux {α : Type} {p : ℕ} (hp : 0 < p) :
    ∀ (N : ℕ) (ws : List α), ws.length ≤ N → (splitParent p ws).flatten = ws := by
  intro N
  induction N with
  | zero =>
    intro ws h
    have h0 : ws = [] := List.length_eq_zero.mp (by omega)
    subst h0
    rw [splitParent_nil]
    rfl
  | succ N ih =>
    intro ws h
    rcases eq_or_ne ws ([] : List α) with rfl | hne
    · rw [splitParent_nil]
      rfl
    · have hWpos : 0 < ws.length := List.length_pos.mpr hne
      rw [splitParent_cons hp ws hne]
      simp only [List.flatten_cons]
      rw [ih (ws.drop p) (by rw [List.length_drop]; omega)]
      exact List.take_append_drop p ws

theorem splitParent_window_bounds {α : Type} {p : ℕ} (hp : 0 < p) :
    ∀ (N : ℕ) (ws : List α), ws.length ≤ N →
      ∀ w ∈ splitParent p ws, 1 ≤ w.length ∧ w.length ≤ p := by
  intro N
  induction N with
  | zero =>
    intro ws h w hw
    have h0 : ws = [] := List.length_eq_zero.mp (by omega)
    subst h0
    rw [splitParent_nil] at hw
    simp at hw
  | succ N ih =>
    intro ws h w hw
    rcases eq_or_ne ws ([] : List α) with rfl | hne
    · rw [splitParent_nil] at hw
      simp at hw
    · have hWpos : 0 < ws.length := List.length_pos.mpr hne
      rw [splitParent_cons hp ws hne] at hw
      rcases List.mem_cons.mp hw with rfl | hw2
      · rw [List.length_take]
        omega
      · exact ih (ws.drop p) (by rw [List.length_drop]; omega) w hw2

theorem splitParent_non_last_len {α : Type} {p : ℕ} (hp : 0 < p) :
    ∀ (N : ℕ) (ws : List α), ws.length ≤ N →
      ∀ k : ℕ, k + 1 < (splitParent p ws).length →
        ((splitParent p ws).getD k []).length = p := by
  intro N
  induction N with
  | zero =>
    intro ws h k hk
    have h0 : ws = [] := List.length_eq_zero.mp (by omega)
    subst h0
    rw [splitParent_nil] at hk
    simp at hk
  | succ N ih =>
    intro ws h k hk
    rcases eq_or_ne ws ([] : List α) with rfl | hne
    · rw [splitParent_nil] at hk
      simp at hk
    · have hWpos : 0 < ws.length := List.length_pos.mpr hne
      rw [splitParent_cons hp ws hne] at hk ⊢
      cases k with
      | zero =>
        simp only [List.getD_cons_zero, List.length_take]
        have hrest : splitParent p (ws.drop p) ≠ [] := by
          intro hcon
          rw [hcon] at hk
          simp at hk
        have hdne : ws.drop p ≠ [] := by
          intro hcon
          rw [hcon, splitParent_nil] at hrest
          exact hrest rfl
        have hdpos : 0 < (ws.drop p).length := List.length_pos.mpr hdne
        rw [List.length_drop] at hdpos
        omega
      | succ k =>
        simp only [List.getD_cons_succ]
        apply ih (ws.drop p) (by rw [List.length_drop]; omega) k
        simp only [List.length_cons] at hk
        omega

theorem splitParent_eq_nil_iff {α : Type} {p : ℕ} (hp : 0 < p) (ws : List α) :
    splitParent p ws = [] ↔ ws = [] := by
  constructor
  · intro h
    by_contra hne
    rw [splitParent_cons hp ws hne] at h
    exact List.cons_ne_nil _ _ h
  · intro h
    rw [h, splitParent_nil]

/-- Python `str.split()` with no separator (src/contextual_rag_lambda.py line
109): scan the characters, splitting on maximal runs of whitespace and
dropping empty pieces; `acc` holds the current word reversed. -/
def pySplitAux : List Char → List Char → List (List Char)
  | [], acc => if acc.isEmpty then [] else [acc.reverse]
  | ch :: rest, acc =>
    if ch.isWhitespace then
      if acc.isEmpty then pySplitAux rest [] else acc.reverse :: pySplitAux rest []
    else pySplitAux rest (ch :: acc)

/-- The whitespace-tokenized word sequence of a document
(`words = text.split()`). -/
def pySplit (text : List Char) : List (List Char) := pySplitAux text []

/-- C4: for every document text, the concatenation (in emission order) of the
word sequences of the parent windows equals the whitespace-tokenized word
sequence of the document (a lossless, order-preserving partition); every parent
window has between 1 and PARENT_CHUNK_SIZE words, every parent window except
the last has exactly PARENT_CHUNK_SIZE words, and an empty document yields no
parent window. -/
theorem c4_parent_split_partition (text : List Char) :
    (splitParent PARENT_CHUNK_SIZE (pySplit text)).flatten = pySplit text ∧
    (∀ w ∈ splitParent PARENT_CHUNK_SIZE (pySplit text),
        1 ≤ w.length ∧ w.length ≤ PARENT_CHUNK_SIZE) ∧
    (∀ k : ℕ, k + 1 < (splitParent PARENT_CHUNK_SIZE (pySplit text)).length →
        ((splitParent PARENT_CHUNK_SIZE (pySplit text)).getD k []).length =
          PARENT_CHUNK_SIZE) ∧
    (splitParent PARENT_CHUNK_SIZE (pySplit text) = [] ↔ pySplit text = []) :=
  ⟨splitParent_join_aux (by decide) (pySplit text).length (pySplit text) le_rfl,
   fun w hw => splitParent_window_bounds (by decide) (pySplit text).length
     (pySplit text) le_rfl w hw,
   fun k hk => splitParent_non_last_len (by decide) (pySplit text).length
     (pySplit text) le_rfl k hk,
   splitParent_eq_nil_iff (by decide) (pySplit text)⟩

theorem c4_witness :
    (splitParent PARENT_CHUNK_SIZE (pySplit "ab cd".toList)).flatten =
        pySplit "ab cd".toList ∧
    (∀ w ∈ splitParent PARENT_CHUNK_SIZE (pySplit "ab cd".toList),
        1 ≤ w.length ∧ w.length ≤ PARENT_CHUNK_SIZE) ∧
    (∀ k : ℕ, k + 1 < (splitParent PARENT_CHUNK_SIZE (pySplit "ab cd".toList)).length →
        ((splitParent PARENT_CHUNK_SIZE (pySplit "ab cd".toList)).getD k []).length =
          PARENT_CHUNK_SIZE) ∧
    (splitParent PARENT_CHUNK_SIZE (pySplit "ab cd".toList) = [] ↔
        pySplit "ab cd".toList = []) :=
  c4_parent_split_partition "ab cd".toList

/-- The two runtimes a chunker can be constructed with (src/test.py lines
40-48): the mock Bedrock runtime of the test harness, or the real boto3
client (opaque to the chunking logic). -/
inductive Runtime where
  | mock : Runtime
  | bedrock : Runtime
deriving DecidableEq

/-- The chunker configuration: the three module-level constants of src/test.py
lines 6-8 (and src/contextual_rag_lambda.py lines 11-13), modelled as explicit
configuration input so that "configuring a chunker with overlap >= child_size"
is expressible. -/
structure ChunkerConfig where
  parent_chunk_size : ℕ
  child_chunk_size : ℕ
  chunk_overlap : ℕ
deriving DecidableEq

/-- The constructed chunker state: `__init__` stores only the runtime client. -/
structure ContextualChunkerState where
  runtime : Runtime
deriving DecidableEq

/-- Embedding of `ContextualChunker.__init__` (src/test.py lines 40-48): the
constructor receives `use_mock`, selects the runtime accordingly, and performs
no validation of the configuration at all; a configuration error would be an
`Except.error`, which the code never produces. -/
def ContextualChunkerInit (cfg : ChunkerConfig) (use_mock : Bool) :
    Except String ContextualChunkerState :=
  Except.ok ⟨if use_mock then Runtime.mock else Runtime.bedrock⟩

/-- C9: the claim fails on the code: `ContextualChunker.__init__` performs no
parameter validation — constructing a chunker configured with overlap 60 ≥ 50 =
child_size succeeds (returns a chunker, not a configuration error), and the
same holds for the real constructor, which does not even look at the
configuration. -/
theorem c9_counterexample :
    ContextualChunkerInit ⟨100, 50, 60⟩ true = Except.ok ⟨Runtime.mock⟩ ∧
    (50 : ℕ) ≤ 60 := ⟨rfl, by decide⟩

/-- C9 (amended): no construction-time validation exists: for every
configuration, including every one with overlap ≥ child_size, and every mock
flag, construction succeeds and merely selects the runtime; invalid
configurations are never rejected (the spec itself records this gap in §4.2
and §9). -/
theorem c9_amended_no_validation (cfg : ChunkerConfig) (use_mock : Bool) :
    ContextualChunkerInit cfg use_mock =
      Except.ok ⟨if use_mock then Runtime.mock else Runtime.bedrock⟩ := rfl

/-- The fixed fallback context string of the hardened variant
(src/test.py line 111). -/
def FALLBACK_CONTEXT : List Char := "[컨텍스트: 이 청크는 문서의 일부입니다]".toList

/-- Embedding of the hardened `ContextualChunker.get_chunk_context`
(src/test.py lines 50-111).  The external text-generation call together with
its response parsing (lines 95-104, inside the `try`) is the capability
`invoke`, taking the whole document and the chunk content; the `except` arm
substitutes the fixed fallback string for any failure. -/
def get_chunk_context {ε : Type}
    (invoke : List Char → List Char → Except ε (List Char))
    (whole_document chunk_content : List Char) : List Char :=
  match invoke whole_document chunk_content with
  | Except.ok r => r
  | Except.error _ => FALLBACK_CONTEXT

/-- `' '.join(...)`: word windows are joined back into strings with single
spaces (src/test.py lines 135 and 157). -/
def joinWords (ws : List (List Char)) : List Char := List.intercalate [' '] ws

/-- The parent chunk strings of the test-harness `ContextualChunker.chunk`
(src/test.py lines 130-136). -/
def parentChunks (text : List Char) : List (List Char) :=
  (splitParent testPARENT_CHUNK_SIZE (pySplit text)).map joinWords

/-- The child chunk strings emitted for one parent chunk (src/test.py lines
143-157): the parent string is re-split into words and the child windows are
joined. -/
def childChunks (parent_chunk : List Char) : List (List Char) :=
  (splitChild testCHILD_CHUNK_SIZE testCHUNK_OVERLAP (pySplit parent_chunk)).map
    joinWords

/-- Embedding of the hardened `ContextualChunker.chunk` (src/test.py lines
113-170): parent split, child split with the merge policy, one context request
per child chunk, and one enriched chunk `context + "\n\n" + child` per child
chunk, in order. -/
def ContextualChunkerChunk {ε : Type}
    (invoke : List Char → List Char → Except ε (List Char))
    (text : List Char) : List (List Char) :=
  (parentChunks text).flatMap (fun parent_chunk =>
    (childChunks parent_chunk).map (fun child_chunk =>
      get_chunk_context invoke parent_chunk child_chunk ++
        "\n\n".toList ++ child_chunk))

/-- Total number of child chunks across all parent chunks of a document. -/
def numChildChunks (text : List Char) : ℕ :=
  ((parentChunks text).map (fun pc => (childChunks pc).length)).sum

/-- C10: the hardened `get_chunk_context` never propagates a failure of the
external text-generation call: whenever the call (or its response parsing)
fails it returns the fixed fallback string
"[컨텍스트: 이 청크는 문서의 일부입니다]"; `chunk` emits exactly one enriched
chunk per child window, and when every external call fails every emitted chunk
is the fallback context followed by a blank line and the child text — the
document is never aborted. -/
theorem c10_fallback_never_aborts {ε : Type}
    (invoke : List Char → List Char → Except ε (List Char)) (text : List Char) :
    (∀ d ch e, invoke d ch = Except.error e →
        get_chunk_context invoke d ch = FALLBACK_CONTEXT) ∧
    (ContextualChunkerChunk invoke text).length = numChildChunks text ∧
    ((∀ d ch, ∃ e, invoke d ch = Except.error e) →
      ∀ out ∈ ContextualChunkerChunk invoke text, ∃ child,
        out = FALLBACK_CONTEXT ++ "\n\n".toList ++ child) := by
  refine ⟨?_, ?_, ?_⟩
  · intro d ch e h
    simp [get_chunk_context, h]
  · rw [ContextualChunkerChunk, numChildChunks, List.flatMap_def, List.length_flatten,
      List.map_map]
    refine congrArg List.sum (List.map_congr_left ?_)
    intro pc _
    simp [Function.comp, List.length_map]
  · intro hfail out hout
    rw [ContextualChunkerChunk] at hout
    obtain ⟨pc, hpc, hout2⟩ := List.mem_flatMap.mp hout
    obtain ⟨cc, hcc, rfl⟩ := List.mem_map.mp hout2
    obtain ⟨e, he⟩ := hfail pc cc
    refine ⟨cc, ?_⟩
    simp [get_chunk_context, he]

theorem c10_witness :
    ((∀ d ch e, (fun (_ _ : List Char) => (Except.error 0 : Except ℕ (List Char))) d ch
          = Except.error e →
        get_chunk_context (fun (_ _ : List Char) =>
          (Except.error 0 : Except ℕ (List Char))) d ch = FALLBACK_CONTEXT) ∧
    (ContextualChunkerChunk (fun (_ _ : List Char) =>
        (Except.error 0 : Except ℕ (List Char))) "ab cd".toList).length =
      numChildChunks "ab cd".toList ∧
    ((∀ d ch, ∃ e, (fun (_ _ : List Char) =>
          (Except.error 0 : Except ℕ (List Char))) d ch = Except.error e) →
      ∀ out ∈ ContextualChunkerChunk (fun (_ _ : List Char) =>
          (Except.error 0 : Except ℕ (List Char))) "ab cd".toList, ∃ child,
        out = FALLBACK_CONTEXT ++ "\n\n".toList ++ child)) :=
  c10_fallback_never_aborts (fun _ _ => Except.error 0) "ab cd".toList
